import Mathlib

/-!
Verification of the resume-optimize analytic engines against their
natural-language specification.  The definitions below are a shallow
embedding of the three engines:

* `generateNgrams` — the word-cloud n-gram extractor (WordCloudTab),
* `keywordMatches` / `missingKeywords` / `analyzeKeywordsScore` and the
  other ATS sub-scores (ATSChecker),
* `processText` / `applyEnhancement` / `metricChanges` — the rewriting
  passes with their change log (ResumeTab).

JavaScript machine numbers are modelled by `Nat`/`Rat`; the one place the
source can produce `NaN` (a `0/0` division) is modelled by `Option Rat`
with `none` standing for `NaN`.  Regular expressions are compiled, pattern
by pattern, into a small backtracking engine (`RE` / `reRun`) whose
alternation and greediness order mirrors the JavaScript engine.
-/

/-- Whitespace characters recognised by the JavaScript regex class `\s`
(ASCII subset; the inputs considered contain no exotic Unicode spaces). -/
def isWsChar (c : Char) : Bool :=
  c = ' ' || c = '\t' || c = '\n' || c = '\x0d' || c = '\x0c' || c = '\x0b'

/-- ASCII alphabetic test, the character class `[a-zA-Z]`. -/
def isAlphaChar (c : Char) : Bool :=
  ('a' ≤ c && c ≤ 'z') || ('A' ≤ c && c ≤ 'Z')

/-- ASCII digit test, the character class `\d`. -/
def isDigitChar (c : Char) : Bool :=
  '0' ≤ c && c ≤ '9'

/-- Word characters for JavaScript `\b` boundaries: `[A-Za-z0-9_]`. -/
def isWordChar (c : Char) : Bool :=
  isAlphaChar c || isDigitChar c || c = '_'

/-- ASCII lowercasing of one character, modelling
`String.prototype.toLowerCase` on the ASCII range. -/
def lowerChar (c : Char) : Char :=
  if 'A' ≤ c && c ≤ 'Z' then Char.ofNat (c.toNat + 32) else c

/-- Lowercase a character list. -/
def lowerL (cs : List Char) : List Char :=
  cs.map lowerChar

/-- Lowercase a string, modelling `text.toLowerCase()`. -/
def lowerStr (s : String) : String :=
  (lowerL s.toList).asString

/-- Decidable prefix test on character lists (character-for-character). -/
def isPre : List Char → List Char → Bool
  | [], _ => true
  | _ :: _, [] => false
  | a :: as, b :: bs => a = b && isPre as bs

/-- Decidable contiguous-substring test, modelling
`String.prototype.includes`: `containsSub nd hay` is true when `nd`
occurs contiguously inside `hay`. -/
def containsSub (nd : List Char) : List Char → Bool
  | [] => isPre nd []
  | c :: rest => isPre nd (c :: rest) || containsSub nd rest

/-- Worker for `jsSplitWsL`: `skipping` is true while inside a
whitespace run whose token has already been emitted, `acc` holds the
(reversed) token being built. -/
def splitWsAux : List Char → Bool → List Char → List (List Char)
  | [], true, _ => [[]]
  | [], false, acc => [acc.reverse]
  | c :: rest, true, _ =>
      if isWsChar c then splitWsAux rest true []
      else splitWsAux rest false [c]
  | c :: rest, false, acc =>
      if isWsChar c then acc.reverse :: splitWsAux rest true []
      else splitWsAux rest false (c :: acc)

/-- Split a character list at whitespace runs, modelling the JavaScript
`text.split(/\s+/)`: maximal whitespace runs are separators, and a leading
or trailing run produces a leading or trailing empty token, exactly as in
JavaScript. -/
def jsSplitWsL (cs : List Char) : List (List Char) :=
  splitWsAux cs false []

/-- String-level wrapper for `jsSplitWsL`. -/
def jsSplitWs (s : String) : List String :=
  (jsSplitWsL s.toList).map List.asString

/-- Modelled external dependency: the English stopword list of the npm
`stopword` package used by `removeStopwords` in WordCloudTab.  The
theorems below do not depend on the particular contents of this list. -/
def stopwordsEng : List String :=
  ["a", "about", "above", "after", "again", "against", "all", "am", "an",
   "and", "any", "are", "as", "at", "be", "because", "been", "before",
   "being", "below", "between", "both", "but", "by", "could", "did", "do",
   "does", "doing", "down", "during", "each", "few", "for", "from",
   "further", "had", "has", "have", "having", "he", "her", "here", "hers",
   "herself", "him", "himself", "his", "how", "i", "if", "in", "into",
   "is", "it", "its", "itself", "just", "me", "more", "most", "my",
   "myself", "no", "nor", "not", "now", "of", "off", "on", "once", "only",
   "or", "other", "our", "ours", "ourselves", "out", "over", "own",
   "same", "she", "should", "so", "some", "such", "than", "that", "the",
   "their", "theirs", "them", "themselves", "then", "there", "these",
   "they", "this", "those", "through", "to", "too", "under", "until",
   "up", "very", "was", "we", "were", "what", "when", "where", "which",
   "while", "who", "whom", "why", "will", "with", "you", "your", "yours",
   "yourself", "yourselves"]

/-- Modelled external dependency: `removeStopwords` from the npm
`stopword` package — keeps exactly the tokens that are not in the
(lowercase) English stopword list. -/
def removeStopwords (ws : List String) : List String :=
  ws.filter (fun w => !stopwordsEng.contains w)

/-- The token-cleaning pipeline of `generateNgrams` (WordCloudTab):
`text.toLowerCase().replace(/[^a-zA-Z\s]/g, '').split(/\s+/)`, then
`removeStopwords(words).filter(word => word.length > 2)`. -/
def cleanWords (text : String) : List String :=
  let stripped := (lowerL text.toList).filter (fun c => isAlphaChar c || isWsChar c)
  (removeStopwords ((jsSplitWsL stripped).map List.asString)).filter
    (fun w => 2 < w.length)

/-- An n-gram with its frequency, the `{ text, value }` objects produced
by `generateNgrams`. -/
structure Ngram where
  text : String
  value : Nat
deriving DecidableEq, Repr

/-- Increment the count of key `k` in an insertion-ordered association
list, appending `(k, 1)` when absent.  This models
`ngrams[phrase] = (ngrams[phrase] || 0) + 1` on a JavaScript object whose
(non-numeric) string keys enumerate in insertion order. -/
def bump (m : List (String × Nat)) (k : String) : List (String × Nat) :=
  match m with
  | [] => [(k, 1)]
  | (k₀, v) :: rest => if k₀ = k then (k₀, v + 1) :: rest else (k₀, v) :: bump rest k

/-- The window phrases of `generateNgrams`: for
`i = 0 .. cleanWords.length - n` (run in JavaScript arithmetic, hence no
iterations when the token list is shorter than `n` and `n ≥ 1`), the
phrase `cleanWords.slice(i, i + n).join(' ')`. -/
def windowPhrases (ws : List String) (n : Nat) : List String :=
  (List.range (ws.length + 1 - n)).map
    (fun i => String.intercalate " " ((ws.drop i).take n))

/-- The phrase-count accumulation loop of `generateNgrams`: every window
phrase not in the excluded set bumps its count. -/
def ngramCounts (excluded : List String) (ws : List String) (n : Nat) :
    List (String × Nat) :=
  (windowPhrases ws n).foldl
    (fun m phrase => if excluded.contains phrase then m else bump m phrase) []

/-- Insert a pair into a descending-by-count list, placing it before the
first strictly smaller count.  In `sortDesc` this realises the stable
JavaScript `sort((a, b) => b.value - a.value)`: entries with equal counts
keep their accumulation (insertion) order. -/
def insertDesc (a : String × Nat) : List (String × Nat) → List (String × Nat)
  | [] => [a]
  | b :: l => if b.2 ≤ a.2 then a :: b :: l else b :: insertDesc a l

/-- Stable descending sort by count, modelling the (stable, ES2019)
JavaScript `Array.prototype.sort` with comparator `b.value - a.value`. -/
def sortDesc : List (String × Nat) → List (String × Nat)
  | [] => []
  | a :: l => insertDesc a (sortDesc l)

/-- `generateNgrams(text, n, limit)` from WordCloudTab, with the ambient
`excludedWords` set passed explicitly: tokenize and clean the text, count
window phrases not in `excluded`, sort descending by count (the stable
JavaScript `sort((a, b) => b.value - a.value)`), and truncate to `limit`. -/
def generateNgrams (excluded : List String) (text : String) (n limit : Nat) :
    List Ngram :=
  let counts := ngramCounts excluded (cleanWords text) n
  ((sortDesc counts).take limit).map (fun p => { text := p.1, value := p.2 })

/-- The number of n-length windows in the cleaned token stream of a text
(zero when the stream is shorter than `n`). -/
def numWindows (text : String) (n : Nat) : Nat :=
  (cleanWords text).length + 1 - n

/-- Count of exact case-insensitive whitespace-token occurrences of a
keyword, from `analyzeKeywords` (ATSChecker):
`words.filter(w => w === wordLower).length` over
`text.toLowerCase().split(/\s+/)`. -/
def tokenCount (text kw : String) : Nat :=
  (jsSplitWsL (lowerL text.toList)).count (lowerL kw.toList)

/-- The matched-keyword list of `analyzeKeywords`: each keyword paired
with its token-occurrence count, keeping only counts above zero. -/
def keywordMatches (text : String) (kws : List String) : List (String × Nat) :=
  (kws.map (fun w => (w, tokenCount text w))).filter (fun p => 0 < p.2)

/-- The missing-keyword list of `analyzeKeywords`: keywords whose
lowercase form is not a substring of the lowercased text
(`!textLower.includes(word.toLowerCase())`). -/
def missingKeywords (text : String) (kws : List String) : List String :=
  kws.filter (fun w => !containsSub (lowerL w.toList) (lowerL text.toList))

/-- The keyword sub-score of `analyzeKeywords`:
`(matches.length / selectedWords.length) * 100`.  The JavaScript division
`0/0` (empty keyword list) produces `NaN`, modelled here as `none`. -/
def analyzeKeywordsScore (kws : List String) (text : String) : Option ℚ :=
  if kws.length = 0 then none
  else some (((keywordMatches text kws).length : ℚ) / (kws.length : ℚ) * 100)

/-- Abstract syntax of the regular-expression fragment used by the
source: character classes, sequencing, ordered alternation, greedy star,
negative lookahead, word boundary and string anchors. -/
inductive RE where
  | eps
  | cls (p : Char → Bool)
  | seq (a b : RE)
  | alt (a b : RE)
  | star (a : RE)
  | nlk (a : RE)
  | wb
  | bos
  | eos

/-- Whether position `i` of `s` holds a word character (out of range
counts as non-word, as at the ends of a JavaScript string). -/
def wordAt (s : List Char) (i : Nat) : Bool :=
  if i < s.length then isWordChar (s.getD i ' ') else false

/-- Backtracking matcher for `RE`, mirroring the JavaScript engine:
alternation and greedy star try their first branch first, a negative
lookahead consumes nothing, and the continuation `k` receives the end
position of each candidate match in trial order.  The fuel argument only
bounds recursion depth; `reFindAt` passes enough for any match. -/
def reRun (s : List Char) : Nat → RE → Nat → (Nat → Option Nat) → Option Nat
  | 0, _, _, _ => none
  | fuel + 1, r, i, k =>
    match r with
    | .eps => k i
    | .cls p => if i < s.length && p (s.getD i ' ') then k (i + 1) else none
    | .seq a b => reRun s fuel a i (fun j => reRun s fuel b j k)
    | .alt a b => (reRun s fuel a i k) <|> (reRun s fuel b i k)
    | .star a =>
        (reRun s fuel a i
          (fun j => if i < j then reRun s fuel (.star a) j k else none)) <|> k i
    | .nlk a =>
        match reRun s fuel a i (fun j => some j) with
        | some _ => none
        | none => k i
    | .wb =>
        if (if i = 0 then false else wordAt s (i - 1)) != wordAt s i then k i
        else none
    | .bos => if i = 0 then k i else none
    | .eos => if i = s.length then k i else none

/-- Structural size of a pattern, used to compute sufficient fuel. -/
def reSize : RE → Nat
  | .eps => 1
  | .cls _ => 1
  | .seq a b => reSize a + reSize b + 1
  | .alt a b => reSize a + reSize b + 1
  | .star a => reSize a + 1
  | .nlk a => reSize a + 1
  | .wb => 1
  | .bos => 1
  | .eos => 1

/-- Anchored match attempt at position `i`: the end position of the
first match in backtracking order, or `none`. -/
def reFindAt (s : List Char) (r : RE) (i : Nat) : Option Nat :=
  reRun s ((reSize r + 2) * (s.length + 2) * 2) r i some

/-- Unanchored `RegExp.prototype.test`: some start position matches. -/
def reTest (r : RE) (s : List Char) : Bool :=
  (List.range (s.length + 1)).any (fun i => (reFindAt s r i).isSome)

/-- Split on newline characters, keeping empty lines, as the `m` flag
delimits lines for `^` and `$`. -/
def splitOnNl : List Char → List (List Char)
  | [] => [[]]
  | c :: rest =>
      if c = '\n' then [] :: splitOnNl rest
      else
        match splitOnNl rest with
        | [] => [[c]]
        | l :: ls => (c :: l) :: ls

/-- A multiline-anchored pattern tests true when some line matches. -/
def reTestLines (r : RE) (s : List Char) : Bool :=
  (splitOnNl s).any (fun l => reTest r l)

/-- Single exact character. -/
def RE.chr (c : Char) : RE := .cls (fun x => x = c)

/-- Case-insensitive literal word, for patterns carrying the `i` flag. -/
def RE.lit (cs : List Char) : RE :=
  cs.foldr (fun c r => RE.seq (.cls (fun x => lowerChar x = lowerChar c)) r) .eps

/-- Greedy optional (`?`). -/
def RE.opt (a : RE) : RE := .alt a .eps

/-- Greedy one-or-more (`+`). -/
def RE.plus (a : RE) : RE := .seq a (.star a)

/-- Ordered alternation of a list of branches (left to right). -/
def RE.altList : List RE → RE
  | [] => .nlk .eps
  | [a] => a
  | a :: rest => .alt a (RE.altList rest)

/-- The class `[A-Z]`. -/
def upperAZ : RE := .cls (fun c => 'A' ≤ c && c ≤ 'Z')

/-- The class `[^a-z]`. -/
def nonLower : RE := .cls (fun c => !('a' ≤ c && c ≤ 'z'))

/-- The class `.` (any character but newline). -/
def dotNoNl : RE := .cls (fun c => c != '\n')

/-- The anchored core `[A-Z][^a-z]+:?$` of the section-heading probe,
shared by the heading check and the body-text negative lookahead. -/
def headingCore : RE :=
  .seq upperAZ (.seq (RE.plus nonLower) (.seq (RE.opt (RE.chr ':')) .eos))

/-- `/^.+?\n/` — the Name/Header probe of `analyzeReadability` (whole
text, not per line; laziness does not affect whether a match exists). -/
def headerRE : RE :=
  .seq .bos (.seq (RE.plus (.cls (fun c => c != '\n'))) (RE.chr '\n'))

/-- `/^[A-Z][^a-z]+:?$/m` — the Section Headings probe, per line. -/
def headingLineRE : RE := .seq .bos headingCore

/-- `/^(?![A-Z][^a-z]+:?$).+$/m` — the Body Text probe, per line. -/
def bodyLineRE : RE :=
  .seq .bos (.seq (.nlk headingCore) (.seq (RE.plus dotNoNl) .eos))

/-- `/^[•·-].+$/m` — the Bullet Points probe, per line. -/
def bulletLineRE : RE :=
  .seq .bos (.seq (.cls (fun c => c = '•' || c = '·' || c = '-'))
    (.seq (RE.plus dotNoNl) .eos))

/-- The four `met` booleans of `analyzeReadability`, in source order. -/
def readabilityChecks (text : String) : List Bool :=
  [reTest headerRE text.toList,
   reTestLines headingLineRE text.toList,
   reTestLines bodyLineRE text.toList,
   reTestLines bulletLineRE text.toList]

/-- The readability sub-score:
`checks.filter(check => check.met).length / checks.length * 100`. -/
def analyzeReadabilityScore (text : String) : ℚ :=
  (((readabilityChecks text).count true : ℚ) / 4) * 100

/-- `/font-family:\s*Name/i` for one allow-listed font name. -/
def fontRE (name : String) : RE :=
  .seq (RE.lit ("font-family:".toList)) (.seq (.star (.cls isWsChar)) (RE.lit name.toList))

/-- The allow-listed font names of `analyzeFonts`, in source order. -/
def allowedFonts : List String :=
  ["Calibri", "Arial", "Times New Roman", "Helvetica"]

/-- The font `found` booleans of `analyzeFonts`. -/
def fontChecks (text : String) : List Bool :=
  allowedFonts.map (fun name => reTest (fontRE name) text.toList)

/-- The binary font sub-score of `analyzeFonts`:
`checks.filter(check => check.found).length > 0 ? 100 : 0`.  It is
computed by `handleFileUpload` but stored outside the `ATSScore` record. -/
def analyzeFontsScore (text : String) : ℚ :=
  if 0 < (fontChecks text).count true then 100 else 0

/-- The certification alternation probes of `analyzeCertifications`, in
source order (each with the `i` flag). -/
def certREs : List RE :=
  [RE.alt (RE.lit ("PMP".toList)) (RE.lit ("Project Management Professional".toList)),
   RE.alt (RE.lit ("AWS".toList)) (RE.lit ("Amazon Web Services".toList)),
   RE.alt (RE.lit ("CISSP".toList))
     (RE.lit ("Certified Information Systems Security Professional".toList))]

/-- The certification sub-score:
`checks.filter(check => check.found).length / checks.length * 100`. -/
def analyzeCertificationsScore (text : String) : ℚ :=
  (((certREs.map (fun r => reTest r text.toList)).count true : ℚ) / 3) * 100

/-- `/[A-Z][^a-z]+:/` — the unanchored section-header heuristic of
`calculateFormattingScore`. -/
def headingColonRE : RE :=
  .seq upperAZ (.seq (RE.plus nonLower) (RE.chr ':'))

/-- The five formatting booleans of `calculateFormattingScore`, in
source order: blank-line break, section header, bullet at string start,
minimum length, no non-ASCII character. -/
def formattingChecks (text : String) : List Bool :=
  [containsSub ("\n\n".toList) text.toList,
   reTest headingColonRE text.toList,
   reTest (.seq .bos (.cls (fun c => c = '•' || c = '·' || c = '-'))) text.toList,
   300 < text.length,
   !(text.toList.any (fun c => 127 < c.toNat))]

/-- The formatting sub-score:
`(checks.filter(Boolean).length / checks.length) * 100`. -/
def calculateFormattingScore (text : String) : ℚ :=
  (((formattingChecks text).count true : ℚ) / 5) * 100

/-- The `ATSScore` record of ATSChecker.  `keywordMatch` and `overall`
are `Option ℚ` because the keyword sub-score can be the JavaScript `NaN`
(modelled `none`), which propagates into the average; the record has no
font field, matching the source. -/
structure ATSScore where
  overall : Option ℚ
  keywordMatch : Option ℚ
  formatting : ℚ
  readability : ℚ
  certifications : ℚ
deriving DecidableEq, Repr

/-- The score assembly of `handleFileUpload` (ATSChecker): the four
sub-scores are computed, the font score separately, and
`overall = (keywordScore + readabilityScore + formattingScore + certScore) / 4`. -/
def atsScore (text : String) (kws : List String) : ATSScore :=
  let k := analyzeKeywordsScore kws text
  let r := analyzeReadabilityScore text
  let f := calculateFormattingScore text
  let c := analyzeCertificationsScore text
  { overall := k.map (fun kv => (kv + r + f + c) / 4),
    keywordMatch := k, formatting := f, readability := r, certifications := c }

/-- The change categories of the `Change` records in ResumeTab. -/
inductive ChangeType where
  | keyword
  | enhancement
  | metric
deriving DecidableEq, Repr

/-- One `Change` log entry of ResumeTab:
`{ original, optimized, type, context }`. -/
structure Change where
  original : String
  optimized : String
  type : ChangeType
  context : String
deriving DecidableEq, Repr

/-- JavaScript word boundary `\b` at position `i` of `s`: exactly one of
the neighbouring positions holds a word character. -/
def wbAt (s : List Char) (i : Nat) : Bool :=
  (if i = 0 then false else wordAt s (i - 1)) != wordAt s i

/-- All matches of the pattern `\bkw\b` with flags `gi` over `s`, where
the keyword is taken as a literal phrase (as the source intends with its
unescaped interpolation `new RegExp(`\bword\b`, 'gi')`): left-to-right
non-overlapping scan, each hit reported as (offset, matched slice); a
zero-length hit advances by one as the JavaScript `lastIndex` does. -/
def scanLit (s kw : List Char) : Nat → Nat → List (Nat × List Char)
  | 0, _ => []
  | fuel + 1, i =>
    if s.length < i then []
    else
      let seg := (s.drop i).take kw.length
      if seg.length = kw.length && lowerL seg = lowerL kw &&
          wbAt s i && wbAt s (i + kw.length) then
        (i, seg) :: scanLit s kw fuel (i + max 1 kw.length)
      else scanLit s kw fuel (i + 1)

/-- `t.slice(a, b)` on character lists with JavaScript clamping (the
callers below always pass `a ≤ b`). -/
def sliceClamp (t : List Char) (a b : Nat) : List Char :=
  (t.drop a).take (b - a)

/-- The context window of every change:
`` `...${text.slice(Math.max(0, offset - 30), offset + match.length + 30)}...` ``.
As in the source, the slice is taken from the pass input `t` while the
offset refers to the string currently being rewritten. -/
def contextOf (t : List Char) (off len : Nat) : String :=
  (("...".toList) ++ sliceClamp t (off - 30) (off + len + 30) ++ ("...".toList)).asString

/-- Rebuild a string from its match list, replacing the `idx`-th match
`m` by `wrap idx m`, as one `String.prototype.replace` call does. -/
def spliceAll (s : List Char) (wrap : Nat → List Char → List Char) :
    Nat → Nat → List (Nat × List Char) → List Char
  | pos, _, [] => s.drop pos
  | pos, idx, (off, m) :: rest =>
      (s.drop pos).take (off - pos) ++ wrap idx m ++
        spliceAll s wrap (off + m.length) (idx + 1) rest

/-- The opening part of the keyword highlight markup of `processText`
(exact template-literal text up to the interpolated match). -/
def keywordMarkPre : List Char :=
  ("<mark class=\"bg-yellow-100 hover:bg-yellow-200 cursor-help relative group\">\n          ").toList

/-- The closing part of the keyword highlight markup of `processText`
(exact template-literal text after the interpolated match). -/
def keywordMarkPost : List Char :=
  ("\n          <span class=\"hidden group-hover:block absolute z-10 bg-white p-2 rounded shadow-lg text-sm\">\n            Matched keyword from Word Cloud\n          </span>\n        </mark>").toList

/-- One keyword iteration of `processText`: find the `\bword\b` matches
of `kw` in the current string `s`, wrap each in the highlight markup, and
emit one keyword `Change` per match with `original = optimized = match`
and a context sliced from the original input `text`. -/
def keywordPass (text : String) (s : List Char) (kw : String) :
    List Char × List Change :=
  let ms := scanLit s kw.toList (s.length + 2) 0
  (spliceAll s (fun _ m => keywordMarkPre ++ m ++ keywordMarkPost) 0 0 ms,
   ms.map (fun om =>
     { original := om.2.asString, optimized := om.2.asString,
       type := ChangeType.keyword,
       context := contextOf text.toList om.1 om.2.length }))

/-- `processText` of ResumeTab: fold the keyword passes over the
selected words in list order, each pass rewriting the output of the
previous one (so later keywords scan a string already carrying markup),
and concatenate the per-pass change logs.  The final DOMPurify step is an
external sanitizer applied after the change log is complete and is not
modelled. -/
def processStep (text : String) (acc : List Char × List Change) (kw : String) :
    List Char × List Change :=
  let r := keywordPass text acc.1 kw
  (r.1, acc.2 ++ r.2)

/-- See `processStep`: the keyword passes folded in list order. -/
def processText (kws : List String) (text : String) : List Char × List Change :=
  kws.foldl (processStep text) (text.toList, [])

/-- The fixed weak-verb replacement map of `handleEnhance`, in source
order. -/
def actionVerbReplacements : List (String × List String) :=
  [("worked", ["spearheaded", "executed", "implemented"]),
   ("made", ["created", "developed", "established"]),
   ("helped", ["facilitated", "supported", "guided"]),
   ("responsible for", ["led", "managed", "orchestrated"]),
   ("did", ["accomplished", "achieved", "completed"]),
   ("improved", ["optimized", "enhanced", "streamlined"])]

/-- The opening part of the enhancement markup of `handleEnhance`
(exact template-literal text up to the interpolated replacement). -/
def enhanceMarkPre : List Char :=
  ("<mark class=\"bg-green-100 hover:bg-green-200 cursor-help relative group\">\n          ").toList

/-- The middle part of the enhancement markup, between the replacement
and the quoted original match. -/
def enhanceMarkMid : List Char :=
  ("\n          <span class=\"hidden group-hover:block absolute z-10 bg-white p-2 rounded shadow-lg text-sm\">\n            Original: \"").toList

/-- The closing part of the enhancement markup, after the quoted match. -/
def enhanceMarkPost : List Char :=
  ("\"<br>\n            Enhanced for stronger impact\n          </span>\n        </mark>").toList

/-- The weak-verb replacement passes of `handleEnhance`, run over an
arbitrary input string `s0` (in the source, the current `optimizedText`).
The `Math.floor(Math.random() * strong.length)` draw is modelled by an
injectable index stream `oracle`: the `k`-th draw overall selects
candidate `oracle k % strong.length`, so every possible run of the
randomized source corresponds to some oracle.  Each verb pass rewrites
the output of the previous one; contexts are sliced from `s0` as the
source slices `optimizedText`. -/
def enhanceStep (oracle : Nat → Nat) (s0 : String)
    (acc : List Char × List Change × Nat) (wr : String × List String) :
    List Char × List Change × Nat :=
  let ms := scanLit acc.1 wr.1.toList (acc.1.length + 2) 0
  let choice := fun idx => wr.2.getD (oracle (acc.2.2 + idx) % wr.2.length) ""
  (spliceAll acc.1
    (fun idx m => enhanceMarkPre ++ (choice idx).toList ++ enhanceMarkMid ++
      m ++ enhanceMarkPost) 0 0 ms,
   acc.2.1 ++ (ms.enum).map (fun p =>
     { original := p.2.2.asString, optimized := choice p.1,
       type := ChangeType.enhancement,
       context := contextOf s0.toList p.2.1 p.2.2.length }),
   acc.2.2 + ms.length)

/-- See `enhanceStep`: the verb passes folded in map order, returning the
rewritten string and the emitted enhancement changes. -/
def applyEnhancement (oracle : Nat → Nat) (s0 : String) :
    List Char × List Change :=
  let r := actionVerbReplacements.foldl (enhanceStep oracle s0) (s0.toList, [], 0)
  (r.1, r.2.1)

/-- The unit tokens of the metric regex, in source order. -/
def unitWords : List String :=
  ["percent", "users", "customers", "dollars", "revenue", "growth",
   "increase", "decrease", "improvement"]

/-- The date-shape pattern `\d{1,2}\/\d{1,2}\/\d{2,4}` inside the
negative lookahead of the metric regex. -/
def dateRE : RE :=
  .seq (.cls isDigitChar) (.seq (RE.opt (.cls isDigitChar))
    (.seq (RE.chr '/') (.seq (.cls isDigitChar) (.seq (RE.opt (.cls isDigitChar))
      (.seq (RE.chr '/') (.seq (.cls isDigitChar) (.seq (.cls isDigitChar)
        (RE.opt (.seq (.cls isDigitChar) (RE.opt (.cls isDigitChar)))))))))))

/-- The number part `\d+(?:,\d{3})*(?:\.\d+)?` of the metric regex. -/
def numRE : RE :=
  .seq (RE.plus (.cls isDigitChar))
    (.seq (.star (.seq (RE.chr ',') (.seq (.cls isDigitChar)
        (.seq (.cls isDigitChar) (.cls isDigitChar)))))
      (RE.opt (.seq (RE.chr '.') (RE.plus (.cls isDigitChar)))))

/-- The unit part `(?:\s*%|\s+(?:percent|users|...))` of the metric
regex (the word alternatives case-insensitive under the `i` flag). -/
def unitTailRE : RE :=
  .alt (.seq (.star (.cls isWsChar)) (RE.chr '%'))
    (.seq (RE.plus (.cls isWsChar))
      (RE.altList (unitWords.map (fun w => RE.lit w.toList))))

/-- The full metric regex of `handleEnhance`:
`/\b(?!\d{1,2}\/\d{1,2}\/\d{2,4})\d+(?:,\d{3})*(?:\.\d+)?(?:\s*%|\s+(?:percent|users|customers|dollars|revenue|growth|increase|decrease|improvement))\b/gi`. -/
def metricRE : RE :=
  .seq .wb (.seq (.nlk dateRE) (.seq numRE (.seq unitTailRE .wb)))

/-- The global scan of the metric `replace` loop: at each position try
an anchored match; on a hit record the matched slice and continue after
it, otherwise advance one position. -/
def metricScan (s : List Char) : Nat → Nat → List (List Char)
  | 0, _ => []
  | fuel + 1, i =>
    if s.length < i then []
    else
      match reFindAt s metricRE i with
      | some j => ((s.drop i).take (j - i)) :: metricScan s fuel (max j (i + 1))
      | none => metricScan s fuel (i + 1)

/-- The `original` texts (equal to the `optimized` texts) of the metric
`Change`s emitted by the metric-highlighting pass of `handleEnhance` on
input `s`, in emission order. -/
def metricChanges (s : String) : List String :=
  (metricScan s.toList (s.length + 2) 0).map List.asString

/-! ## Library lemmas about the embedded operations -/

theorem sum_take_le : ∀ (l : List Nat) (n : Nat), (l.take n).sum ≤ l.sum
  | [], _ => by simp
  | _ :: _, 0 => Nat.zero_le _
  | a :: l, n + 1 => by
      simp only [List.take_succ_cons, List.sum_cons]
      exact Nat.add_le_add_left (sum_take_le l n) a

theorem insertDesc_perm (a : String × Nat) :
    ∀ l : List (String × Nat), List.Perm (insertDesc a l) (a :: l)
  | [] => List.Perm.refl _
  | b :: l => by
      by_cases h : b.2 ≤ a.2
      · simp [insertDesc, h]
      · rw [insertDesc, if_neg h]
        exact ((insertDesc_perm a l).cons b).trans (List.Perm.swap a b l)

theorem sortDesc_perm : ∀ l : List (String × Nat), List.Perm (sortDesc l) l
  | [] => List.Perm.refl _
  | a :: l => (insertDesc_perm a (sortDesc l)).trans ((sortDesc_perm l).cons a)

theorem insertDesc_sorted (a : String × Nat) :
    ∀ l : List (String × Nat),
      l.Pairwise (fun x y => y.2 ≤ x.2) →
      (insertDesc a l).Pairwise (fun x y => y.2 ≤ x.2)
  | [], _ => by simp [insertDesc]
  | b :: l, h => by
      rw [List.pairwise_cons] at h
      by_cases hba : b.2 ≤ a.2
      · rw [insertDesc, if_pos hba, List.pairwise_cons]
        refine ⟨?_, List.pairwise_cons.mpr h⟩
        intro x hx
        rcases List.mem_cons.mp hx with hx | hx
        · rw [hx]
          exact hba
        · exact Nat.le_trans (h.1 x hx) hba
      · rw [insertDesc, if_neg hba, List.pairwise_cons]
        refine ⟨?_, insertDesc_sorted a l h.2⟩
        intro x hx
        rcases List.mem_cons.mp ((insertDesc_perm a l).mem_iff.mp hx) with hx | hx
        · rw [hx]
          exact Nat.le_of_lt (Nat.lt_of_not_le hba)
        · exact h.1 x hx

theorem sortDesc_sorted :
    ∀ l : List (String × Nat), (sortDesc l).Pairwise (fun x y => y.2 ≤ x.2)
  | [] => List.Pairwise.nil
  | a :: l => insertDesc_sorted a (sortDesc l) (sortDesc_sorted l)

theorem bump_pos :
    ∀ (m : List (String × Nat)) (k : String),
      (∀ p ∈ m, 1 ≤ p.2) → ∀ p ∈ bump m k, 1 ≤ p.2
  | [], k, _, p, hp => by
      simp only [bump, List.mem_singleton] at hp
      subst hp
      exact Nat.le_refl 1
  | (k₀, v) :: rest, k, hm, p, hp => by
      rw [bump] at hp
      by_cases h : k₀ = k
      · rw [if_pos h] at hp
        rcases List.mem_cons.mp hp with hp | hp
        · rw [hp]
          exact Nat.le_add_left 1 v
        · exact hm p (List.mem_cons_of_mem _ hp)
      · rw [if_neg h] at hp
        rcases List.mem_cons.mp hp with hp | hp
        · rw [hp]
          exact hm (k₀, v) (List.mem_cons_self _ _)
        · exact bump_pos rest k (fun q hq => hm q (List.mem_cons_of_mem _ hq)) p hp

theorem bump_sum :
    ∀ (m : List (String × Nat)) (k : String),
      ((bump m k).map Prod.snd).sum = (m.map Prod.snd).sum + 1
  | [], k => by simp [bump]
  | (k₀, v) :: rest, k => by
      rw [bump]
      by_cases h : k₀ = k
      · rw [if_pos h]
        simp only [List.map_cons, List.sum_cons]
        omega
      · rw [if_neg h]
        simp only [List.map_cons, List.sum_cons, bump_sum rest k]
        omega

theorem bump_fst :
    ∀ (m : List (String × Nat)) (k : String),
      ∀ p ∈ bump m k, p.1 = k ∨ p.1 ∈ m.map Prod.fst
  | [], k, p, hp => by
      simp only [bump, List.mem_singleton] at hp
      subst hp
      exact Or.inl rfl
  | (k₀, v) :: rest, k, p, hp => by
      rw [bump] at hp
      by_cases h : k₀ = k
      · rw [if_pos h] at hp
        rcases List.mem_cons.mp hp with hp | hp
        · rw [hp, List.map_cons]
          exact Or.inr (List.mem_cons_self _ _)
        · rw [List.map_cons]
          exact Or.inr (List.mem_cons_of_mem _ (List.mem_map_of_mem Prod.fst hp))
      · rw [if_neg h] at hp
        rcases List.mem_cons.mp hp with hp | hp
        · rw [hp, List.map_cons]
          exact Or.inr (List.mem_cons_self _ _)
        · rcases bump_fst rest k p hp with h1 | h1
          · exact Or.inl h1
          · rw [List.map_cons]
            exact Or.inr (List.mem_cons_of_mem _ h1)

theorem foldCounts_pos (excl : List String) :
    ∀ (ps : List String) (m : List (String × Nat)),
      (∀ p ∈ m, 1 ≤ p.2) →
      ∀ p ∈ ps.foldl
        (fun m ph => if excl.contains ph then m else bump m ph) m, 1 ≤ p.2
  | [], _, hm => hm
  | ph :: ps, m, hm => by
      rw [List.foldl_cons]
      by_cases h : excl.contains ph
      · rw [if_pos h]
        exact foldCounts_pos excl ps m hm
      · rw [if_neg h]
        exact foldCounts_pos excl ps (bump m ph) (bump_pos m ph hm)

theorem foldCounts_sum_le (excl : List String) :
    ∀ (ps : List String) (m : List (String × Nat)),
      ((ps.foldl (fun m ph => if excl.contains ph then m else bump m ph) m).map
        Prod.snd).sum ≤ (m.map Prod.snd).sum + ps.length
  | [], _ => Nat.le_add_right _ _
  | ph :: ps, m => by
      rw [List.foldl_cons, List.length_cons]
      by_cases h : excl.contains ph
      · rw [if_pos h]
        exact Nat.le_trans (foldCounts_sum_le excl ps m) (by omega)
      · rw [if_neg h]
        exact Nat.le_trans (foldCounts_sum_le excl ps (bump m ph))
          (by rw [bump_sum]; omega)

theorem foldCounts_excl (excl : List String) :
    ∀ (ps : List String) (m : List (String × Nat)),
      (∀ p ∈ m, excl.contains p.1 = false) →
      ∀ p ∈ ps.foldl
        (fun m ph => if excl.contains ph then m else bump m ph) m,
        excl.contains p.1 = false
  | [], _, hm => hm
  | ph :: ps, m, hm => by
      rw [List.foldl_cons]
      by_cases h : excl.contains ph
      · rw [if_pos h]
        exact foldCounts_excl excl ps m hm
      · rw [if_neg h]
        refine foldCounts_excl excl ps (bump m ph) ?_
        intro p hp
        rw [Bool.not_eq_true] at h
        rcases bump_fst m ph p hp with h1 | h1
        · rw [h1]
          exact h
        · obtain ⟨q, hq, hq1⟩ := List.mem_map.mp h1
          rw [← hq1]
          exact hm q hq

/-! ## Claims about the n-gram extractor -/

/-- C5: for every text, n ≥ 1 and limit, extraction with an empty
excluded set returns at most `limit` items, every returned n-gram has
count at least 1, and the counts sum to at most the number of n-length
windows in the cleaned token stream. -/
theorem ngram_extraction_bounds (text : String) (n limit : Nat) (_hn : 1 ≤ n) :
    (generateNgrams [] text n limit).length ≤ limit ∧
    (∀ g ∈ generateNgrams [] text n limit, 1 ≤ g.value) ∧
    ((generateNgrams [] text n limit).map Ngram.value).sum ≤ numWindows text n := by
  refine ⟨?_, ?_, ?_⟩
  · rw [generateNgrams, List.length_map, List.length_take]
    exact Nat.min_le_left _ _
  · intro g hg
    rw [generateNgrams, List.mem_map] at hg
    obtain ⟨p, hp, hgp⟩ := hg
    have hp1 : p ∈ sortDesc (ngramCounts [] (cleanWords text) n) :=
      List.take_subset _ _ hp
    have hp2 : p ∈ ngramCounts [] (cleanWords text) n :=
      (sortDesc_perm _).mem_iff.mp hp1
    rw [← hgp]
    exact foldCounts_pos [] (windowPhrases (cleanWords text) n) [] (by simp) p hp2
  · rw [generateNgrams]
    have h1 : (((sortDesc (ngramCounts [] (cleanWords text) n)).take limit).map
        (fun p => ({ text := p.1, value := p.2 } : Ngram))).map Ngram.value =
        ((sortDesc (ngramCounts [] (cleanWords text) n)).take limit).map Prod.snd := by
      rw [List.map_map]
      rfl
    rw [h1, List.map_take]
    refine Nat.le_trans (sum_take_le _ _) ?_
    rw [((sortDesc_perm (ngramCounts [] (cleanWords text) n)).map Prod.snd).sum_eq]
    refine Nat.le_trans (foldCounts_sum_le [] (windowPhrases (cleanWords text) n) []) ?_
    rw [windowPhrases, List.length_map, List.length_range, numWindows]
    simp

/-- C5 witness: the bounds hold at a concrete extraction. -/
theorem ngram_extraction_bounds_witness :
    (1 ≤ 1 ∧
      (generateNgrams [] ("alpha beta alpha gamma") 1 15).length ≤ 15 ∧
      (∀ g ∈ generateNgrams [] ("alpha beta alpha gamma") 1 15, 1 ≤ g.value) ∧
      ((generateNgrams [] ("alpha beta alpha gamma") 1 15).map Ngram.value).sum ≤
        numWindows ("alpha beta alpha gamma") 1) :=
  ⟨Nat.le_refl 1, ngram_extraction_bounds ("alpha beta alpha gamma") 1 15 (Nat.le_refl 1)⟩

/-- C7: the extractor is a pure function — two runs on identical inputs
give identical ordered output — and the output is sorted descending by
count (the stable sort leaves ties in accumulation order). -/
theorem ngram_extraction_deterministic (excluded : List String) (text : String)
    (n limit : Nat) :
    generateNgrams excluded text n limit = generateNgrams excluded text n limit ∧
    (generateNgrams excluded text n limit).Pairwise
      (fun a b => b.value ≤ a.value) := by
  refine ⟨rfl, ?_⟩
  rw [generateNgrams]
  refine List.Pairwise.map _ (fun a b h => h) ?_
  exact (sortDesc_sorted (ngramCounts excluded (cleanWords text) n)).sublist
    (List.take_sublist _ _)

/-- C9: a phrase placed in the excluded set never appears in the output
of a subsequent extraction with that set. -/
theorem excluded_phrase_never_output (excluded : List String) (text : String)
    (n limit : Nat) (p : String) (hp : p ∈ excluded) :
    ∀ g ∈ generateNgrams excluded text n limit, g.text ≠ p := by
  intro g hg
  rw [generateNgrams, List.mem_map] at hg
  obtain ⟨q, hq, hgq⟩ := hg
  have hq2 : q ∈ ngramCounts excluded (cleanWords text) n :=
    (sortDesc_perm _).mem_iff.mp (List.take_subset _ _ hq)
  have h3 : excluded.contains q.1 = false :=
    foldCounts_excl excluded (windowPhrases (cleanWords text) n) [] (by simp) q hq2
  intro he
  rw [← hgq] at he
  have h4 : excluded.contains p = true := List.elem_eq_true_of_mem hp
  rw [← he] at h4
  rw [h3] at h4
  exact Bool.false_ne_true h4

/-- C9 witness: a concretely excluded phrase is absent from the output. -/
theorem excluded_phrase_never_output_witness :
    ("beta" ∈ ["beta"] ∧
      ∀ g ∈ generateNgrams ["beta"] ("alpha beta alpha") 1 15, g.text ≠ "beta") :=
  ⟨List.mem_singleton.mpr rfl,
    excluded_phrase_never_output ["beta"] ("alpha beta alpha") 1 15 "beta"
      (List.mem_singleton.mpr rfl)⟩

/-- C2 (code bug): a window size of `n = 0` (the malformed `n < 1` case)
is not rejected with a precondition error — `generateNgrams` silently
returns a result, counting the empty phrase once per loop iteration. -/
theorem ngram_size_zero_not_rejected :
    generateNgrams [] ("quick brown foxes") 0 15 =
      [{ text := "", value := 4 }] := by decide

/-! ## Claims about the keyword scoring -/

/-- C3 (code bug): `score("", [])` completes, but with an empty keyword
list the keyword sub-score is the JavaScript division `0/0`, i.e. `NaN`
(modelled `none`) with no documented convention, and the `NaN` propagates
into the overall average. -/
theorem keyword_score_empty_list_nan :
    (atsScore "" []).keywordMatch = none ∧ (atsScore "" []).overall = none := by
  constructor <;> rfl

/-- C4 counterexample: the keyword `"cat"` against the text `"cats"` has
zero whitespace-token occurrences, yet the missing list is empty (the
missing list is decided by substring containment, not token occurrence),
so the keyword appears in neither list. -/
theorem keyword_missing_list_counterexample :
    tokenCount ("cats") ("cat") = 0 ∧
    missingKeywords ("cats") ["cat"] = [] ∧
    keywordMatches ("cats") ["cat"] = [] := by
  refine ⟨by decide, by decide, by decide⟩

/-- C4 as amended: the occurrence list holds exactly the keywords with at
least one case-insensitive token occurrence, paired with their counts;
the missing list holds exactly the keywords whose lowercase form is not a
substring of the lowercased text; and for a nonempty keyword list the
sub-score is (number of keywords with ≥ 1 token occurrence) / (total
keyword count) × 100. -/
theorem keyword_analysis_characterization (text : String) (kws : List String) :
    (∀ p ∈ keywordMatches text kws, 1 ≤ p.2 ∧ p.2 = tokenCount text p.1) ∧
    (∀ kw ∈ kws, 1 ≤ tokenCount text kw →
      (kw, tokenCount text kw) ∈ keywordMatches text kws) ∧
    (∀ kw : String, kw ∈ missingKeywords text kws ↔
      (kw ∈ kws ∧ containsSub (lowerL kw.toList) (lowerL text.toList) = false)) ∧
    (kws ≠ [] → analyzeKeywordsScore kws text =
      some (((keywordMatches text kws).length : ℚ) / (kws.length : ℚ) * 100)) := by
  refine ⟨?_, ?_, ?_, ?_⟩
  · intro p hp
    rw [keywordMatches, List.mem_filter] at hp
    obtain ⟨hp1, hp2⟩ := hp
    obtain ⟨w, _, hw2⟩ := List.mem_map.mp hp1
    constructor
    · exact Nat.succ_le_of_lt (of_decide_eq_true hp2)
    · rw [← hw2]
  · intro kw hkw hcount
    rw [keywordMatches, List.mem_filter]
    refine ⟨List.mem_map_of_mem _ hkw, ?_⟩
    exact decide_eq_true (Nat.lt_of_lt_of_le Nat.zero_lt_one hcount)
  · intro kw
    rw [missingKeywords, List.mem_filter]
    constructor
    · intro ⟨h1, h2⟩
      rw [Bool.not_eq_true'] at h2
      exact ⟨h1, h2⟩
    · intro ⟨h1, h2⟩
      rw [Bool.not_eq_true']
      exact ⟨h1, h2⟩
  · intro hne
    rw [analyzeKeywordsScore,
      if_neg (fun h0 => hne (List.length_eq_zero.mp h0))]

/-- C4 witness: the characterization applied at a concrete text and
keyword list. -/
theorem keyword_analysis_characterization_witness :
    ("cat", 2) ∈ keywordMatches ("cat dog cat") ["cat", "bird"] ∧
    "bird" ∈ missingKeywords ("cat dog cat") ["cat", "bird"] ∧
    analyzeKeywordsScore ["cat", "bird"] ("cat dog cat") = some (1 / 2 * 100) := by
  refine ⟨?_, ?_, ?_⟩
  · have h := (keyword_analysis_characterization ("cat dog cat")
      ["cat", "bird"]).2.1 "cat" (by decide) (by decide)
    have hc : tokenCount ("cat dog cat") ("cat") = 2 := by decide
    rw [hc] at h
    exact h
  · exact ((keyword_analysis_characterization ("cat dog cat")
      ["cat", "bird"]).2.2.1 "bird").mpr ⟨by decide, by decide⟩
  · have h := (keyword_analysis_characterization ("cat dog cat")
      ["cat", "bird"]).2.2.2 (by simp)
    have hl : (keywordMatches ("cat dog cat") ["cat", "bird"]).length = 1 := by
      decide
    rw [hl] at h
    rw [h]
    norm_num

/-- C6: for a nonempty keyword list the overall score is exactly the
unweighted arithmetic mean of the keyword, readability, formatting and
certification sub-scores, and any two texts agreeing on those four
sub-scores get the same overall score — in particular the font sub-score
(computed separately by `analyzeFontsScore`) never contributes. -/
theorem overall_score_mean_of_four (t₁ t₂ : String) (kws : List String)
    (hk : kws ≠ []) :
    (∃ k, analyzeKeywordsScore kws t₁ = some k ∧
      (atsScore t₁ kws).overall =
        some ((k + analyzeReadabilityScore t₁ + calculateFormattingScore t₁ +
          analyzeCertificationsScore t₁) / 4)) ∧
    (analyzeKeywordsScore kws t₁ = analyzeKeywordsScore kws t₂ →
      analyzeReadabilityScore t₁ = analyzeReadabilityScore t₂ →
      calculateFormattingScore t₁ = calculateFormattingScore t₂ →
      analyzeCertificationsScore t₁ = analyzeCertificationsScore t₂ →
      (atsScore t₁ kws).overall = (atsScore t₂ kws).overall) := by
  have hlen : kws.length ≠ 0 := fun h0 => hk (List.length_eq_zero.mp h0)
  constructor
  · refine ⟨((keywordMatches t₁ kws).length : ℚ) / (kws.length : ℚ) * 100, ?_, ?_⟩
    · rw [analyzeKeywordsScore, if_neg hlen]
    · simp only [atsScore]
      rw [analyzeKeywordsScore, if_neg hlen]
      rfl
  · intro h1 h2 h3 h4
    simp only [atsScore]
    rw [h1, h2, h3, h4]

/-- C6 witness: two concrete texts with equal keyword, readability,
formatting and certification sub-scores but different font sub-scores
receive the same overall score. -/
theorem overall_score_mean_of_four_witness :
    analyzeFontsScore ("font-family: Calibri\nHEAD:\n- x\nok") ≠
      analyzeFontsScore ("font-family: Garamond\nHEAD:\n- x\nok") ∧
    (["alpha"] : List String) ≠ [] ∧
    (atsScore ("font-family: Calibri\nHEAD:\n- x\nok") ["alpha"]).overall =
      (atsScore ("font-family: Garamond\nHEAD:\n- x\nok") ["alpha"]).overall := by
  refine ⟨?_, by simp, ?_⟩
  · have hf1 : analyzeFontsScore ("font-family: Calibri\nHEAD:\n- x\nok") = 100 := by
      rw [analyzeFontsScore, if_pos (by decide)]
    have hf2 : analyzeFontsScore ("font-family: Garamond\nHEAD:\n- x\nok") = 0 := by
      rw [analyzeFontsScore, if_neg (by decide)]
    rw [hf1, hf2]
    norm_num
  · have hkey : analyzeKeywordsScore ["alpha"] ("font-family: Calibri\nHEAD:\n- x\nok") =
        analyzeKeywordsScore ["alpha"] ("font-family: Garamond\nHEAD:\n- x\nok") := by
      rw [analyzeKeywordsScore, analyzeKeywordsScore,
        show keywordMatches ("font-family: Calibri\nHEAD:\n- x\nok") ["alpha"] = []
          from by decide,
        show keywordMatches ("font-family: Garamond\nHEAD:\n- x\nok") ["alpha"] = []
          from by decide]
    have hread : analyzeReadabilityScore ("font-family: Calibri\nHEAD:\n- x\nok") =
        analyzeReadabilityScore ("font-family: Garamond\nHEAD:\n- x\nok") := by
      rw [analyzeReadabilityScore, analyzeReadabilityScore,
        show (readabilityChecks ("font-family: Calibri\nHEAD:\n- x\nok")).count true = 4
          from by decide,
        show (readabilityChecks ("font-family: Garamond\nHEAD:\n- x\nok")).count true = 4
          from by decide]
    have hfmt : calculateFormattingScore ("font-family: Calibri\nHEAD:\n- x\nok") =
        calculateFormattingScore ("font-family: Garamond\nHEAD:\n- x\nok") := by
      rw [calculateFormattingScore, calculateFormattingScore,
        show (formattingChecks ("font-family: Calibri\nHEAD:\n- x\nok")).count true = 2
          from by decide,
        show (formattingChecks ("font-family: Garamond\nHEAD:\n- x\nok")).count true = 2
          from by decide]
    have hcert : analyzeCertificationsScore ("font-family: Calibri\nHEAD:\n- x\nok") =
        analyzeCertificationsScore ("font-family: Garamond\nHEAD:\n- x\nok") := by
      rw [analyzeCertificationsScore, analyzeCertificationsScore,
        show (certREs.map (fun r =>
            reTest r ("font-family: Calibri\nHEAD:\n- x\nok").toList)).count true = 0
          from by decide,
        show (certREs.map (fun r =>
            reTest r ("font-family: Garamond\nHEAD:\n- x\nok").toList)).count true = 0
          from by decide]
    exact (overall_score_mean_of_four ("font-family: Calibri\nHEAD:\n- x\nok")
      ("font-family: Garamond\nHEAD:\n- x\nok") ["alpha"] (by simp)).2
      hkey hread hfmt hcert

/-! ## Claims about the rewriting passes -/

theorem isPre_take : ∀ (l : List Char) (n : Nat), isPre (l.take n) l = true
  | _, 0 => rfl
  | [], _ + 1 => rfl
  | c :: l, n + 1 => by
      simp only [List.take_succ_cons, isPre, isPre_take l n]
      simp

theorem containsSub_of_isPre :
    ∀ (nd hay : List Char), isPre nd hay = true → containsSub nd hay = true
  | nd, [], h => by rw [containsSub]; exact h
  | nd, c :: rest, h => by rw [containsSub, h]; rfl

theorem containsSub_drop :
    ∀ (hay : List Char) (j : Nat) (nd : List Char),
      containsSub nd (hay.drop j) = true → containsSub nd hay = true
  | _, 0, _, h => h
  | [], _ + 1, _, h => h
  | c :: rest, j + 1, nd, h => by
      rw [containsSub, containsSub_drop rest j nd h]
      simp

/-- Any contiguous slice of a character list is contained in it. -/
theorem containsSub_dropTake (l : List Char) (j n : Nat) :
    containsSub ((l.drop j).take n) l = true :=
  containsSub_drop l j _ (containsSub_of_isPre _ _ (isPre_take (l.drop j) n))

/-- Every hit of the literal-phrase scanner is the slice of the scanned
string at its offset, and agrees with the phrase up to case. -/
theorem scanLit_mem (s kw : List Char) :
    ∀ (fuel i : Nat), ∀ om ∈ scanLit s kw fuel i,
      om.2 = (s.drop om.1).take kw.length ∧ lowerL om.2 = lowerL kw
  | 0, _, om, hom => absurd hom (List.not_mem_nil om)
  | fuel + 1, i, om, hom => by
      simp only [scanLit] at hom
      split at hom
      · exact absurd hom (List.not_mem_nil om)
      · split at hom
        case isTrue hcond =>
          rcases List.mem_cons.mp hom with hom1 | hom2
          · subst hom1
            simp only [Bool.and_eq_true, decide_eq_true_eq] at hcond
            exact ⟨rfl, hcond.1.1.2⟩
          · exact scanLit_mem s kw fuel _ om hom2
        case isFalse => exact scanLit_mem s kw fuel _ om hom

/-- Fold invariant for `processText`: every accumulated change has
`optimized = original` and keyword type. -/
theorem processFold_changes (text : String) :
    ∀ (kws : List String) (acc : List Char × List Change),
      (∀ c ∈ acc.2, c.optimized = c.original ∧ c.type = ChangeType.keyword) →
      ∀ c ∈ (kws.foldl (processStep text) acc).2,
        c.optimized = c.original ∧ c.type = ChangeType.keyword
  | [], _, hacc => hacc
  | kw :: kws, acc, hacc => by
      rw [List.foldl_cons]
      refine processFold_changes text kws _ ?_
      intro c hc
      simp only [processStep, keywordPass] at hc
      rcases List.mem_append.mp hc with hc | hc
      · exact hacc c hc
      · obtain ⟨om, _, hom2⟩ := List.mem_map.mp hc
        rw [← hom2]
        exact ⟨rfl, rfl⟩

/-- A single-keyword pass only records substrings of the scanned text. -/
theorem keywordPass_original_in_text (text : String) (kw : String) :
    ∀ c ∈ (processText [kw] text).2,
      containsSub (lowerL c.original.toList) (lowerL text.toList) = true := by
  intro c hc
  simp only [processText, List.foldl_cons, List.foldl_nil, processStep,
    keywordPass, List.nil_append] at hc
  obtain ⟨om, hom, hom2⟩ := List.mem_map.mp hc
  have h := scanLit_mem text.toList kw.toList (text.toList.length + 2) 0 om hom
  rw [← hom2]
  show containsSub (lowerL om.2) (lowerL text.toList) = true
  rw [h.1, lowerL, List.map_take, List.map_drop]
  exact containsSub_dropTake (lowerL text.toList) om.1 kw.toList.length

/-- C8 as amended: every change of the keyword-highlighting pass leaves
the matched characters unaltered (`optimized = original`, keyword type),
and for a single-keyword pass the recorded `original` is always a
case-insensitive substring of the input text.  (With several keywords a
later keyword may match inside markup inserted by an earlier one, so its
`original` need not occur in the input text — see the counterexample.) -/
theorem keyword_changes_unaltered (text : String) (kws : List String) :
    (∀ c ∈ (processText kws text).2,
      c.optimized = c.original ∧ c.type = ChangeType.keyword) ∧
    (∀ (kw : String) (c : Change), c ∈ (processText [kw] text).2 →
      containsSub (lowerL c.original.toList) (lowerL text.toList) = true) :=
  ⟨fun c hc => processFold_changes text kws (text.toList, []) (by simp) c hc,
   fun kw c hc => keywordPass_original_in_text text kw c hc⟩

set_option maxRecDepth 4000 in
/-- C8 witness: the amended claim applied at a concrete text, keyword
and emitted change. -/
theorem keyword_changes_unaltered_witness :
    (Change.mk "Alpha" "Alpha" ChangeType.keyword
        ("...say Alpha twice alpha!...")) ∈
      (processText ["alpha"] ("say Alpha twice alpha!")).2 ∧
    ((Change.mk "Alpha" "Alpha" ChangeType.keyword
        ("...say Alpha twice alpha!...")).optimized =
      (Change.mk "Alpha" "Alpha" ChangeType.keyword
        ("...say Alpha twice alpha!...")).original ∧
      (Change.mk "Alpha" "Alpha" ChangeType.keyword
        ("...say Alpha twice alpha!...")).type = ChangeType.keyword) ∧
    containsSub (lowerL ("Alpha").toList)
      (lowerL ("say Alpha twice alpha!").toList) = true := by
  refine ⟨by decide, ?_, ?_⟩
  · exact (keyword_changes_unaltered ("say Alpha twice alpha!") ["alpha"]).1
      (Change.mk "Alpha" "Alpha" ChangeType.keyword
        ("...say Alpha twice alpha!...")) (by decide)
  · exact (keyword_changes_unaltered ("say Alpha twice alpha!") ["alpha"]).2
      "alpha" (Change.mk "Alpha" "Alpha" ChangeType.keyword
        ("...say Alpha twice alpha!...")) (by decide)

set_option maxRecDepth 8000 in
/-- C8 counterexample: with keywords `["alpha", "hover"]` on the text
`"alpha"`, the second keyword matches inside the markup inserted by the
first, so the pass emits keyword changes whose `original` (`"hover"`) is
not a substring of the input text — the claim that every `original` is a
matched substring of the text fails. -/
theorem keyword_change_not_in_text_counterexample :
    (processText ["alpha", "hover"] ("alpha")).2.map Change.original =
      ["alpha", "hover", "hover"] ∧
    containsSub (lowerL ("hover").toList) (lowerL ("alpha").toList) = false := by
  refine ⟨by decide, by decide⟩

theorem mem_of_enumFrom {α : Type} :
    ∀ (l : List α) (n : Nat) (p : Nat × α), p ∈ l.enumFrom n → p.2 ∈ l
  | [], _, _, hp => absurd hp (List.not_mem_nil _)
  | a :: l, n, p, hp => by
      rw [List.enumFrom] at hp
      rcases List.mem_cons.mp hp with hp1 | hp2
      · rw [hp1]
        exact List.mem_cons_self _ _
      · exact List.mem_cons_of_mem _ (mem_of_enumFrom l (n + 1) p hp2)

theorem getD_mod_mem (l : List String) (k : Nat) (h : l ≠ []) :
    l.getD (k % l.length) "" ∈ l := by
  have hl : 0 < l.length := List.length_pos.mpr h
  have hk : k % l.length < l.length := Nat.mod_lt k hl
  rw [List.getD_eq_getElem?_getD, List.getElem?_eq_getElem hk, Option.getD_some]
  exact List.getElem_mem hk

/-- Fold invariant for `applyEnhancement`: every accumulated change is
an enhancement whose original matches some map entry case-insensitively
and whose optimized text is one of that entry's candidates. -/
theorem enhanceFold_changes (oracle : Nat → Nat) (s0 : String) :
    ∀ (l : List (String × List String)) (acc : List Char × List Change × Nat),
      (∀ c ∈ acc.2.1, c.type = ChangeType.enhancement ∧
        ∃ wr, wr ∈ actionVerbReplacements ∧
          lowerStr c.original = lowerStr wr.1 ∧
          (wr.2 ≠ [] → c.optimized ∈ wr.2)) →
      (∀ wr ∈ l, wr ∈ actionVerbReplacements) →
      ∀ c ∈ (l.foldl (enhanceStep oracle s0) acc).2.1,
        c.type = ChangeType.enhancement ∧
        ∃ wr, wr ∈ actionVerbReplacements ∧
          lowerStr c.original = lowerStr wr.1 ∧
          (wr.2 ≠ [] → c.optimized ∈ wr.2)
  | [], _, hacc, _ => hacc
  | wr :: l, acc, hacc, hl => by
      rw [List.foldl_cons]
      refine enhanceFold_changes oracle s0 l _ ?_
        (fun w hw => hl w (List.mem_cons_of_mem _ hw))
      intro c hc
      simp only [enhanceStep] at hc
      rcases List.mem_append.mp hc with hc | hc
      · exact hacc c hc
      · obtain ⟨p, hp, hp2⟩ := List.mem_map.mp hc
        have hms := scanLit_mem acc.1 wr.1.toList (acc.1.length + 2) 0 p.2
          (mem_of_enumFrom _ 0 p hp)
        refine ⟨by rw [← hp2], wr, hl wr (List.mem_cons_self _ _), ?_, ?_⟩
        · rw [← hp2]
          show lowerStr p.2.2.asString = lowerStr wr.1
          rw [lowerStr, lowerStr]
          show (lowerL p.2.2).asString = (lowerL wr.1.toList).asString
          rw [hms.2]
        · intro hne
          rw [← hp2]
          exact getD_mod_mem wr.2 _ hne

/-- C10: every change emitted by the weak-verb enhancement passes, for
every input string and every outcome of the (oracle-modelled) random
selection, is an enhancement whose `original` equals one of the weak
phrases of the fixed map up to case, and whose `optimized` is one of the
candidate replacements listed for that weak phrase. -/
theorem enhancement_changes_from_verb_map (oracle : Nat → Nat) (s : String)
    (c : Change) (hc : c ∈ (applyEnhancement oracle s).2) :
    c.type = ChangeType.enhancement ∧
    ∃ weak strong, (weak, strong) ∈ actionVerbReplacements ∧
      lowerStr c.original = weak ∧ c.optimized ∈ strong := by
  simp only [applyEnhancement] at hc
  have h := enhanceFold_changes oracle s actionVerbReplacements
    (s.toList, [], 0) (by simp) (fun w hw => hw) c hc
  obtain ⟨hty, wr, hwr, horig, hopt⟩ := h
  have hlow : ∀ w ∈ actionVerbReplacements, lowerStr w.1 = w.1 := by decide
  have hne : ∀ w ∈ actionVerbReplacements, w.2 ≠ [] := by decide
  refine ⟨hty, wr.1, wr.2, ?_, ?_, hopt (hne wr hwr)⟩
  · exact (Prod.mk.eta (p := wr)) ▸ hwr
  · rw [horig, hlow wr hwr]

set_option maxRecDepth 2000 in
/-- C10 witness: the guarantee applied at a concrete input, oracle and
emitted change. -/
theorem enhancement_changes_from_verb_map_witness :
    (Change.mk "worked" "spearheaded" ChangeType.enhancement
        ("...I worked hard...")) ∈
      (applyEnhancement (fun _ => 0) ("I worked hard")).2 ∧
    ((Change.mk "worked" "spearheaded" ChangeType.enhancement
        ("...I worked hard...")).type = ChangeType.enhancement ∧
      ∃ weak strong, (weak, strong) ∈ actionVerbReplacements ∧
        lowerStr (Change.mk "worked" "spearheaded" ChangeType.enhancement
          ("...I worked hard...")).original = weak ∧
        (Change.mk "worked" "spearheaded" ChangeType.enhancement
          ("...I worked hard...")).optimized ∈ strong) := by
  refine ⟨by decide, ?_⟩
  exact enhancement_changes_from_verb_map (fun _ => 0) ("I worked hard")
    (Change.mk "worked" "spearheaded" ChangeType.enhancement
      ("...I worked hard...")) (by decide)

set_option maxRecDepth 4000 in
/-- C1 (code bug): on `"3/15/2024 saw a 20% increase"` the metric pass
emits no metric change at all — the regex requires a word boundary
immediately after `%`, which fails before a space or the end of the
string, so `"20%"` (and a fortiori `"20% increase"`) is never flagged;
the date `"3/15/2024"` is (as the claim demands) not flagged either.
The second conjunct shows the embedded pass is not vacuous: a
space-separated word unit such as `"20 percent"` is flagged. -/
theorem metric_pass_misses_percent_increase :
    metricChanges ("3/15/2024 saw a 20% increase") = [] ∧
    metricChanges ("grew 20 percent overall") = ["20 percent"] := by
  refine ⟨by decide, by decide⟩
